import Mathlib

/-!
Verification of the `pytraverser` terminal tree browser (`pytraverser.py`).

The core of the program is a navigation state machine over a lazily loaded
tree of nodes.  We embed it shallowly:

* external MDSplus node identifiers become `Nat`;
* the external data source (the MDSplus methods `getMembers` / `getChildren`)
  becomes a `DataSource` record whose calls may fail (`Except Unit`);
* the mutable `_Node` objects become an inductive `Node` tree; the Python
  object identity of a node is represented by its access path from the root
  (a `List Nat` of child indices), and the `parent` back-reference by
  dropping the last step of a path;
* the body of the `while True` loop in `tree_select._ui` becomes the pure
  transition function `step` on a browser state `BState`; the keys the loop
  dispatches on become the inductive `Key`;
* a raised exception that the code does not catch becomes the `Step.fault`
  outcome; loads performed by a transition are reported as the list of paths
  of the nodes whose children were fetched.
-/

set_option linter.unusedVariables false
set_option linter.unnecessarySeqFocus false

namespace PyTraverser

/-- External data source (the MDSplus layer): for a node identifier it can
enumerate the identifiers of its member nodes and of its child nodes.
Either call can raise, which we model as `Except Unit`. -/
structure DataSource where
  getMembers : Nat → Except Unit (List Nat)
  getChildNodes : Nat → Except Unit (List Nat)

/-- `get_children` from the source: combines the members and the children of
the node, members first.  A failure of either underlying call propagates to
the caller of `get_children`. -/
def get_children (ds : DataSource) (nodeId : Nat) : Except Unit (List Nat) := do
  let members ← ds.getMembers nodeId
  let children ← ds.getChildNodes nodeId
  return members ++ children

/-- `_Node` from the source: identifier, `loaded` flag, `expanded` flag and
the list of child nodes.  The `label` field is omitted (it is derived from
the identifier at construction and never inspected by the navigation logic);
the `parent` back-reference is represented externally, by node paths. -/
inductive Node : Type where
  | mk (id : Nat) (loaded : Bool) (expanded : Bool) (children : List Node)

mutual

/-- Boolean structural equality on nodes. -/
def Node.beq : Node → Node → Bool
  | .mk i1 l1 e1 cs1, .mk i2 l2 e2 cs2 =>
      i1 == i2 && l1 == l2 && e1 == e2 && Node.beqList cs1 cs2

/-- Boolean structural equality on children lists. -/
def Node.beqList : List Node → List Node → Bool
  | [], [] => true
  | c :: cs, d :: ds => Node.beq c d && Node.beqList cs ds
  | _, _ => false

end

mutual

theorem Node.beq_iff : ∀ (a b : Node), (Node.beq a b = true) ↔ a = b
  | .mk i1 l1 e1 cs1, .mk i2 l2 e2 cs2 => by
      simp only [Node.beq, Bool.and_eq_true, beq_iff_eq, Node.mk.injEq]
      constructor
      · rintro ⟨⟨⟨h1, h2⟩, h3⟩, h4⟩
        exact ⟨h1, h2, h3, (Node.beqList_iff cs1 cs2).1 h4⟩
      · rintro ⟨h1, h2, h3, h4⟩
        exact ⟨⟨⟨h1, h2⟩, h3⟩, (Node.beqList_iff cs1 cs2).2 h4⟩

theorem Node.beqList_iff : ∀ (as bs : List Node), (Node.beqList as bs = true) ↔ as = bs
  | [], [] => by simp [Node.beqList]
  | [], b :: bs => by simp [Node.beqList]
  | a :: as, [] => by simp [Node.beqList]
  | a :: as, b :: bs => by
      simp only [Node.beqList, Bool.and_eq_true, List.cons.injEq]
      rw [Node.beq_iff a b, Node.beqList_iff as bs]

end

instance : DecidableEq Node := fun a b =>
  decidable_of_iff (Node.beq a b = true) (Node.beq_iff a b)

/-- The external identifier of a node. -/
def Node.id : Node → Nat
  | .mk i _ _ _ => i

/-- The `loaded` flag of a node. -/
def Node.loaded : Node → Bool
  | .mk _ l _ _ => l

/-- The `expanded` flag of a node. -/
def Node.expanded : Node → Bool
  | .mk _ _ e _ => e

/-- The children list of a node. -/
def Node.children : Node → List Node
  | .mk _ _ _ cs => cs

/-- `_Node.__init__`: a freshly materialised node has no children and is
neither loaded nor expanded. -/
def Node.new (nodeId : Nat) : Node :=
  .mk nodeId false false []

/-- Replace the `expanded` flag of a node, leaving everything else intact. -/
def Node.setExpanded : Node → Bool → Node
  | .mk i l _ cs, e => .mk i l e cs

/-- `node.children = [_Node(cid, node) for cid in kids]; node.loaded = True`:
the node after a successful fetch that returned `kids`. -/
def Node.withLoaded : Node → List Nat → Node
  | .mk i _ e _, kids => .mk i true e (kids.map Node.new)

mutual

/-- The recursive `walk` inside `_build_visible`: emit the node at its depth
and, exactly when it is expanded, its children at `depth+1`, in order. -/
def walkVisible : Node → Nat → List (Node × Nat)
  | .mk i l e cs, depth =>
      (Node.mk i l e cs, depth) :: (if e then walkVisibleList cs (depth + 1) else [])

/-- `walk` mapped over a children list, left to right. -/
def walkVisibleList : List Node → Nat → List (Node × Nat)
  | [], _ => []
  | c :: cs, depth => walkVisible c depth ++ walkVisibleList cs depth

end

/-- `_build_visible` from the source: the flattened list of `(node, depth)`
rows currently visible, starting from the root at depth 0. -/
def build_visible (root : Node) : List (Node × Nat) :=
  walkVisible root 0

mutual

/-- Path-instrumented variant of `_build_visible`: the same traversal, but
each row carries the path of the node from the root (its identity) and its
depth, instead of the node value itself. -/
def visitPaths : Node → List Nat → Nat → List (List Nat × Nat)
  | .mk _ _ e cs, path, depth =>
      (path, depth) :: (if e then visitPathsList cs path 0 (depth + 1) else [])

/-- `visitPaths` mapped over a children list; `j` is the index of the first
child of the list within its parent. -/
def visitPathsList : List Node → List Nat → Nat → Nat → List (List Nat × Nat)
  | [], _, _, _ => []
  | c :: cs, path, j, depth =>
      visitPaths c (path ++ [j]) depth ++ visitPathsList cs path (j + 1) depth

end

/-- The visible rows of the tree, as (path, depth) pairs. -/
def visiblePaths (root : Node) : List (List Nat × Nat) :=
  visitPaths root [] 0

/-- Resolve a path (a node identity) to the node it denotes, if any. -/
def getPath : Node → List Nat → Option Node
  | n, [] => some n
  | n, i :: p =>
      match n.children[i]? with
      | some c => getPath c p
      | none => none

mutual

/-- Apply `f` to the node denoted by a path, rebuilding the tree around it.
This is the pure counterpart of mutating a `_Node` object in place through
the reference held in the visible list. -/
def updatePath : Node → List Nat → (Node → Node) → Node
  | n, [], f => f n
  | .mk i l e cs, j :: p, f => .mk i l e (updateChildList cs j p f)

/-- Walk to child index `j` of a children list and update below it. -/
def updateChildList : List Node → Nat → List Nat → (Node → Node) → List Node
  | [], _, _, _ => []
  | c :: cs, 0, p, f => updatePath c p f :: cs
  | c :: cs, j + 1, p, f => c :: updateChildList cs j p f

end

/-- The state the `while True` loop of `tree_select._ui` carries between
iterations: the root of the node tree and the cursor index. -/
structure BState where
  root : Node
  cursor : Nat
deriving DecidableEq

/-- The logical inputs the loop dispatches on (arrow keys and their vi-style
equivalents are already merged, as in the source's `ch in (...)` tests). -/
inductive Key : Type where
  | up | down | right | left | enter | space | select | quit
deriving DecidableEq

/-- Outcome of one loop iteration: continue with a new state, terminate with
`selected_path` (`some` id on select, `none` on cancel), or abort with an
exception the loop does not catch. -/
inductive Step : Type where
  | next (s : BState)
  | done (sel : Option Nat)
  | fault
deriving DecidableEq

/-- `some sel` when the iteration terminated the session normally. -/
def Step.isDone : Step → Option (Option Nat)
  | .done sel => some sel
  | _ => none

/-- `true` when the iteration aborted with an uncaught exception. -/
def Step.isFault : Step → Bool
  | .fault => true
  | _ => false

/-- `if visible: cursor = max(0, min(cursor, len(visible)-1))` from the top
of the loop body. -/
def clampCursor (visible : List (List Nat × Nat)) (cursor : Nat) : Nat :=
  if visible.isEmpty then cursor else max 0 (min cursor (visible.length - 1))

/-- The `for idx, (n, _) in enumerate(pv): if n is parent: ... break` search:
index of the first row whose node is the parent (identity = path). -/
def findFirstIdx (parent : List Nat) : List (List Nat × Nat) → Nat → Option Nat
  | [], _ => none
  | e :: rest, i => if e.1 = parent then some i else findFirstIdx parent rest (i + 1)

/-- `node.loaded = True` after a successful fetch, together with the fresh
children: the mutation shared by the right/enter/space handlers when the
current node is not yet loaded.  A failed fetch is the raised exception the
loop does not catch. -/
def ensureLoaded (ds : DataSource) (n : Node) : Except Unit Node :=
  if n.loaded then .ok n
  else
    match get_children ds n.id with
    | .error e => .error e
    | .ok kids => .ok (n.withLoaded kids)

/-- The `KEY_RIGHT` branch of the loop body, acting on the current node `n`
at path `p`: ensure the node is loaded, then set `expanded = True` exactly
when it has children. -/
def rightKey (ds : DataSource) (root : Node) (p : List Nat) (n : Node) (cursor : Nat) :
    Step × List (List Nat) :=
  match ensureLoaded ds n with
  | .error _ => (.fault, [p])
  | .ok n1 =>
      let n2 := if n1.children.isEmpty then n1 else n1.setExpanded true
      (.next ⟨updatePath root p (fun _ => n2), cursor⟩, if n.loaded then [] else [p])

/-- The `KEY_LEFT` branch of the loop body: collapse the current node if it
is expanded, otherwise move the cursor to the row of its parent (found by
identity) in the freshly rebuilt visible list; no-op on the unexpanded
root. -/
def leftKey (root : Node) (p : List Nat) (n : Node) (cursor : Nat) :
    Step × List (List Nat) :=
  if n.expanded then
    (.next ⟨updatePath root p (fun m => m.setExpanded false), cursor⟩, [])
  else if p.isEmpty then (.next ⟨root, cursor⟩, [])
  else
    let pv := visiblePaths root
    (.next ⟨root, (findFirstIdx p.dropLast pv 0).getD cursor⟩, [])

/-- The Enter branch of the loop body: ensure the current node is loaded,
then set `selected_path` to its identifier and break out of the loop. -/
def enterKey (ds : DataSource) (n : Node) (p : List Nat) : Step × List (List Nat) :=
  match ensureLoaded ds n with
  | .error _ => (.fault, [p])
  | .ok _ => (.done (some n.id), if n.loaded then [] else [p])

/-- The Space branch of the loop body: ensure the current node is loaded,
then flip `expanded` if it has children and force it to `False` otherwise. -/
def spaceKey (ds : DataSource) (root : Node) (p : List Nat) (n : Node) (cursor : Nat) :
    Step × List (List Nat) :=
  match ensureLoaded ds n with
  | .error _ => (.fault, [p])
  | .ok n1 =>
      let n2 := n1.setExpanded (if n1.children.isEmpty then false else !n1.expanded)
      (.next ⟨updatePath root p (fun _ => n2), cursor⟩, if n.loaded then [] else [p])

/-- The guard shared by the right/left/enter/space/select branches: with an
empty visible list the branch is a `continue`; otherwise the handler runs on
the row under the (already clamped) cursor.  Resolving the row's path cannot
fail, but the embedding keeps the impossible case as a `continue`. -/
def withCurrent (root : Node) (visible : List (List Nat × Nat)) (cursor : Nat)
    (handler : List Nat → Node → Step × List (List Nat)) : Step × List (List Nat) :=
  if visible.isEmpty then (.next ⟨root, cursor⟩, [])
  else
    let p := (visible.getD cursor ([], 0)).1
    match getPath root p with
    | none => (.next ⟨root, cursor⟩, [])
    | some n => handler p n

/-- One iteration of the `while True` loop of `tree_select._ui`, given the
key that `getch` returned: the next `Step`, paired with the list of paths of
the nodes for which `get_children` was called during the iteration. -/
def step (ds : DataSource) (s : BState) (k : Key) : Step × List (List Nat) :=
  let visible := visiblePaths s.root
  let cursor := clampCursor visible s.cursor
  match k with
  | .quit => (.done none, [])
  | .up => (.next ⟨s.root, cursor - 1⟩, [])
  | .down =>
      (.next ⟨s.root, if visible.isEmpty then 0 else min (visible.length - 1) (cursor + 1)⟩, [])
  | .right => withCurrent s.root visible cursor (fun p n => rightKey ds s.root p n cursor)
  | .left => withCurrent s.root visible cursor (fun p n => leftKey s.root p n cursor)
  | .enter => withCurrent s.root visible cursor (fun p n => enterKey ds n p)
  | .space => withCurrent s.root visible cursor (fun p n => spaceKey ds s.root p n cursor)
  | .select => withCurrent s.root visible cursor (fun p n => (.done (some n.id), []))

/-- Root construction at the top of `tree_select._ui`: the fetch for the
root is the only one wrapped in `try/except`, failure yielding `kids = []`;
the root is then marked `loaded = True` and `expanded = True`, and the
cursor starts at 0. -/
def initState (ds : DataSource) (rootId : Nat) : BState :=
  let kids :=
    match get_children ds rootId with
    | .error _ => []
    | .ok ks => ks
  ⟨Node.mk rootId true true (kids.map Node.new), 0⟩

/-- Result of feeding a whole key sequence to the loop. -/
inductive RunRes : Type where
  | browsing (s : BState)
  | finished (sel : Option Nat)
  | faulted
deriving DecidableEq

/-- Run the loop on a list of keys, collecting the paths of all nodes whose
children were fetched along the way. -/
def runKeys (ds : DataSource) (s : BState) : List Key → RunRes × List (List Nat)
  | [] => (.browsing s, [])
  | k :: ks =>
      match step ds s k with
      | (.next s2, fs) =>
          let r := runKeys ds s2 ks
          (r.1, fs ++ r.2)
      | (.done sel, fs) => (.finished sel, fs)
      | (.fault, fs) => (.faulted, fs)

/-- The states the browser can be in: the state built by root construction
and everything the loop can step to from there. -/
inductive Reachable (ds : DataSource) (rootId : Nat) : BState → Prop where
  | init : Reachable ds rootId (initState ds rootId)
  | next {s s2 : BState} {k : Key} {fs : List (List Nat)} :
      Reachable ds rootId s → step ds s k = (.next s2, fs) → Reachable ds rootId s2

mutual

/-- The data-model invariant, checked on every node of a tree:
`expanded` implies `loaded`, and a node that is not `loaded` has no
children. -/
def invB : Node → Bool
  | .mk _ l e cs => ((!e || l) && (l || cs.isEmpty)) && invListB cs

/-- `invB` over a children list. -/
def invListB : List Node → Bool
  | [] => true
  | c :: cs => invB c && invListB cs

end

/-- The visible-list builder as §4.2 of the design words it: pre-order
depth-first traversal from the root (depth 0, always included); each node's
children sequence is visited, in original order, immediately following it at
depth+1, if and only if the node's `expanded` flag is true; unexpanded nodes
contribute no descendants.  Used only to compare against `build_visible`. -/
def visibleSpec (n : Node) (depth : Nat) : List (Node × Nat) :=
  (n, depth) ::
    (if n.expanded then
      (n.children.attach.map (fun c => visibleSpec c.1 (depth + 1))).flatten
    else [])
termination_by sizeOf n
decreasing_by
  have h := List.sizeOf_lt_of_mem c.2
  cases n with
  | mk i l e cs =>
    simp only [Node.children] at h
    simp only [Node.mk.sizeOf_spec]
    omega

/-- Terminal-mode events emitted by `tree_select` and its helpers, in the
order the code performs them.  `loopIteration` abstracts one pass of the
render/input loop (which performs no alternate-screen switching). -/
inductive TermEvent : Type where
  | exitAltScreen | enterAltScreen | loopIteration
deriving DecidableEq

/-- The alternate-screen-relevant calls of `tree_select._ui`, in order:
`_enter_alt_screen()` at the top, then the render/input loop, one
`loopIteration` per key consumed.  `_ui` performs no exit/restore call. -/
def uiEvents (keys : List Key) : List TermEvent :=
  TermEvent.enterAltScreen :: keys.map (fun _ => TermEvent.loopIteration)

/-- The alternate-screen-relevant calls of `tree_select`, in order: the body
executes `_exit_alt_screen()` first, then `curses.wrapper(_ui)`; after the
wrapper returns (or `KeyboardInterrupt` is caught) no further alternate-screen
call is made on any path. -/
def tree_select_events (keys : List Key) : List TermEvent :=
  TermEvent.exitAltScreen :: uiEvents keys

/-- Example data source for concrete runs: node 0 has members `[1]` and
structural children `[2]`, node 1 has member `[3]`, everything else is
childless; no call fails. -/
def dsEx : DataSource where
  getMembers := fun i => .ok (if i = 0 then [1] else if i = 1 then [3] else [])
  getChildNodes := fun i => .ok (if i = 0 then [2] else [])

/-- Data source whose fetches succeed only for the root identifier 0 (which
has children `[1, 2]`) and raise for every other node. -/
def dsFail : DataSource where
  getMembers := fun i => if i = 0 then .ok [1, 2] else .error ()
  getChildNodes := fun i => if i = 0 then .ok [] else .error ()

mutual

/-- Every node of a tree, in preorder and irrespective of `expanded`. -/
def allNodes : Node → List Node
  | .mk i l e cs => Node.mk i l e cs :: allNodesList cs

/-- `allNodes` over a children list. -/
def allNodesList : List Node → List Node
  | [] => []
  | c :: cs => allNodes c ++ allNodesList cs

end

/-! ### Basic lemmas about the node model -/

@[simp] theorem Node.id_mk (i : Nat) (l e : Bool) (cs : List Node) :
    (Node.mk i l e cs).id = i := rfl

@[simp] theorem Node.loaded_mk (i : Nat) (l e : Bool) (cs : List Node) :
    (Node.mk i l e cs).loaded = l := rfl

@[simp] theorem Node.expanded_mk (i : Nat) (l e : Bool) (cs : List Node) :
    (Node.mk i l e cs).expanded = e := rfl

@[simp] theorem Node.children_mk (i : Nat) (l e : Bool) (cs : List Node) :
    (Node.mk i l e cs).children = cs := rfl

@[simp] theorem Node.setExpanded_id (n : Node) (b : Bool) : (n.setExpanded b).id = n.id := by
  cases n <;> rfl

@[simp] theorem Node.setExpanded_loaded (n : Node) (b : Bool) :
    (n.setExpanded b).loaded = n.loaded := by
  cases n <;> rfl

@[simp] theorem Node.setExpanded_expanded (n : Node) (b : Bool) :
    (n.setExpanded b).expanded = b := by
  cases n <;> rfl

@[simp] theorem Node.setExpanded_children (n : Node) (b : Bool) :
    (n.setExpanded b).children = n.children := by
  cases n <;> rfl

@[simp] theorem Node.withLoaded_id (n : Node) (kids : List Nat) :
    (n.withLoaded kids).id = n.id := by
  cases n <;> rfl

@[simp] theorem Node.withLoaded_loaded (n : Node) (kids : List Nat) :
    (n.withLoaded kids).loaded = true := by
  cases n <;> rfl

@[simp] theorem Node.withLoaded_expanded (n : Node) (kids : List Nat) :
    (n.withLoaded kids).expanded = n.expanded := by
  cases n <;> rfl

@[simp] theorem Node.withLoaded_children (n : Node) (kids : List Nat) :
    (n.withLoaded kids).children = kids.map Node.new := by
  cases n <;> rfl

@[simp] theorem getPath_nil (n : Node) : getPath n [] = some n := rfl

theorem getPath_cons (n : Node) (i : Nat) (p : List Nat) :
    getPath n (i :: p) = (n.children[i]?).bind (fun c => getPath c p) := by
  cases h : n.children[i]? with
  | none => simp only [getPath, h, Option.bind]
  | some c => simp only [getPath, h, Option.bind]

/-! ### Lemmas about path update -/

theorem updateChildList_length (cs : List Node) (j : Nat) (p : List Nat) (f : Node → Node) :
    (updateChildList cs j p f).length = cs.length := by
  induction cs generalizing j with
  | nil => rfl
  | cons c cs ih =>
    cases j with
    | zero => simp [updateChildList]
    | succ j => simp [updateChildList, ih]

theorem updateChildList_getElem?_self (cs : List Node) (j : Nat) (p : List Nat)
    (f : Node → Node) :
    (updateChildList cs j p f)[j]? = cs[j]?.map (fun c => updatePath c p f) := by
  induction cs generalizing j with
  | nil => rfl
  | cons c cs ih =>
    cases j with
    | zero => simp [updateChildList]
    | succ j => simpa [updateChildList] using ih j

theorem updateChildList_getElem?_ne (cs : List Node) (i j : Nat) (p : List Nat)
    (f : Node → Node) (h : i ≠ j) : (updateChildList cs j p f)[i]? = cs[i]? := by
  induction cs generalizing i j with
  | nil => rfl
  | cons c cs ih =>
    cases j with
    | zero =>
      cases i with
      | zero => exact absurd rfl h
      | succ i => simp [updateChildList]
    | succ j =>
      cases i with
      | zero => simp [updateChildList]
      | succ i => simpa [updateChildList] using ih i j (by omega)

@[simp] theorem updatePath_nil (n : Node) (f : Node → Node) :
    updatePath n [] f = f n := by
  cases n <;> rfl

theorem updatePath_cons (i : Nat) (l e : Bool) (cs : List Node) (j : Nat) (p : List Nat)
    (f : Node → Node) :
    updatePath (Node.mk i l e cs) (j :: p) f = Node.mk i l e (updateChildList cs j p f) := rfl

theorem getPath_updatePath_self (q : List Nat) (n m : Node) (f : Node → Node)
    (h : getPath n q = some m) :
    getPath (updatePath n q f) q = some (f m) := by
  induction q generalizing n with
  | nil =>
    simp only [getPath_nil, Option.some.injEq] at h
    subst h
    simp
  | cons j q ih =>
    cases n with
    | mk i l e cs =>
      rw [getPath_cons] at h
      cases hc : cs[j]? with
      | none => rw [Node.children_mk, hc] at h; simp at h
      | some c =>
        rw [Node.children_mk, hc] at h
        simp only [Option.some_bind] at h
        rw [updatePath_cons, getPath_cons, Node.children_mk,
          updateChildList_getElem?_self, hc]
        simpa using ih c h

/-- Nodes reachable at a path other than the updated one keep their identity
and `loaded` flag, provided the update either preserves the children of the
node it rewrites or that node had no children to begin with (which is the
case for every mutation the loop performs: flag flips preserve children, and
a load rewrites a node whose children list is empty). -/
theorem getPath_updatePath_loaded (q : List Nat) (n : Node) (f : Node → Node)
    (hq : ∀ m, getPath n q = some m →
        (m.loaded = true → (f m).loaded = true ∧ (f m).id = m.id) ∧
        ((f m).children = m.children ∨ m.children = [])) :
    ∀ p m, getPath n p = some m → m.loaded = true →
      ∃ m2, getPath (updatePath n q f) p = some m2 ∧ m2.loaded = true ∧ m2.id = m.id := by
  induction q generalizing n with
  | nil =>
    intro p m hp hl
    have hfn := hq n rfl
    cases p with
    | nil =>
      have hnm : n = m := by simpa using hp
      subst hnm
      exact ⟨f n, by simp, (hfn.1 hl).1, (hfn.1 hl).2⟩
    | cons i p =>
      rw [getPath_cons] at hp
      cases hc : n.children[i]? with
      | none => rw [hc] at hp; simp at hp
      | some c =>
        rw [hc] at hp
        simp only [Option.some_bind] at hp
        rcases hfn.2 with hkeep | hnil
        · refine ⟨m, ?_, hl, rfl⟩
          rw [updatePath_nil, getPath_cons, hkeep, hc]
          simpa using hp
        · rw [hnil] at hc
          simp at hc
  | cons j q ih =>
    intro p m hp hl
    cases n with
    | mk i l e cs =>
      rw [updatePath_cons]
      cases p with
      | nil =>
        have hnm : Node.mk i l e cs = m := by simpa using hp
        refine ⟨Node.mk i l e (updateChildList cs j q f), by simp, ?_, ?_⟩
        · rw [← hnm] at hl
          simpa using hl
        · rw [← hnm]
          simp
      | cons i2 p =>
        rw [getPath_cons, Node.children_mk] at hp
        cases hc : cs[i2]? with
        | none => rw [hc] at hp; simp at hp
        | some c =>
          rw [hc] at hp
          simp only [Option.some_bind] at hp
          by_cases hij : i2 = j
          · subst hij
            have hq2 : ∀ m2, getPath c q = some m2 →
                (m2.loaded = true → (f m2).loaded = true ∧ (f m2).id = m2.id) ∧
                ((f m2).children = m2.children ∨ m2.children = []) := by
              intro m2 hm2
              apply hq
              rw [getPath_cons, Node.children_mk, hc]
              simpa using hm2
            rcases ih c hq2 p m hp hl with ⟨m2, hg, hl2, hid⟩
            refine ⟨m2, ?_, hl2, hid⟩
            rw [getPath_cons, Node.children_mk, updateChildList_getElem?_self, hc]
            simpa using hg
          · refine ⟨m, ?_, hl, rfl⟩
            rw [getPath_cons, Node.children_mk, updateChildList_getElem?_ne cs i2 j q f hij, hc]
            simpa using hp

/-! ### The data-model invariant and its preservation -/

theorem invB_mk (i : Nat) (l e : Bool) (cs : List Node) :
    invB (Node.mk i l e cs) = (((!e || l) && (l || cs.isEmpty)) && invListB cs) := rfl

theorem invListB_getElem? : ∀ (cs : List Node), invListB cs = true →
    ∀ (i : Nat) (c : Node), cs[i]? = some c → invB c = true := by
  intro cs
  induction cs with
  | nil => intro h i c hc; simp at hc
  | cons d ds ih =>
    intro h i c hc
    simp only [invListB, Bool.and_eq_true] at h
    cases i with
    | zero =>
      have hdc : d = c := by simpa using hc
      exact hdc ▸ h.1
    | succ i => exact ih h.2 i c (by simpa using hc)

/-- The two §3 invariants, read off `invB` at the node itself. -/
theorem invB_here (n : Node) (h : invB n = true) :
    (n.expanded = true → n.loaded = true) ∧ (n.loaded = false → n.children = []) := by
  cases n with
  | mk i l e cs =>
    rw [invB_mk] at h
    simp only [Bool.and_eq_true, Bool.or_eq_true, Bool.not_eq_true'] at h
    constructor
    · intro he
      rcases h.1.1 with h1 | h1
      · rw [Node.expanded_mk] at he; rw [he] at h1; cases h1
      · simpa using h1
    · intro hl
      rcases h.1.2 with h1 | h1
      · rw [Node.loaded_mk] at hl; rw [hl] at h1; cases h1
      · simpa [List.isEmpty_iff] using h1

theorem invB_getPath : ∀ (p : List Nat) (n : Node), invB n = true →
    ∀ (m : Node), getPath n p = some m → invB m = true := by
  intro p
  induction p with
  | nil =>
    intro n hn m hm
    have : n = m := by simpa using hm
    exact this ▸ hn
  | cons i p ih =>
    intro n hn m hm
    rw [getPath_cons] at hm
    cases hc : n.children[i]? with
    | none => rw [hc] at hm; simp at hm
    | some c =>
      rw [hc] at hm
      simp only [Option.some_bind] at hm
      have hinvc : invB c = true := by
        cases n with
        | mk i2 l e cs =>
          rw [invB_mk] at hn
          simp only [Bool.and_eq_true] at hn
          exact invListB_getElem? cs hn.2 i c (by simpa using hc)
      exact ih c hinvc m hm

theorem invB_setExpanded_false (n : Node) (h : invB n = true) :
    invB (n.setExpanded false) = true := by
  cases n with
  | mk i l e cs =>
    rw [invB_mk] at h
    simp only [Bool.and_eq_true] at h
    show invB (Node.mk i l false cs) = true
    rw [invB_mk]
    simp only [Bool.and_eq_true]
    exact ⟨⟨by simp, h.1.2⟩, h.2⟩

theorem invB_setExpanded_of_loaded (n : Node) (b : Bool) (h : invB n = true)
    (hl : n.loaded = true) : invB (n.setExpanded b) = true := by
  cases n with
  | mk i l e cs =>
    rw [Node.loaded_mk] at hl
    subst hl
    rw [invB_mk] at h
    simp only [Bool.and_eq_true] at h
    show invB (Node.mk i true b cs) = true
    rw [invB_mk]
    simp only [Bool.and_eq_true]
    exact ⟨⟨by simp, by simp⟩, h.2⟩

theorem invB_new (i : Nat) : invB (Node.new i) = true := rfl

theorem invListB_map_new (kids : List Nat) : invListB (kids.map Node.new) = true := by
  induction kids with
  | nil => rfl
  | cons k ks ih => simp [invListB, invB_new, ih]

theorem invB_withLoaded (n : Node) (kids : List Nat) (h : invB n = true) :
    invB (n.withLoaded kids) = true := by
  cases n with
  | mk i l e cs =>
    show invB (Node.mk i true e (kids.map Node.new)) = true
    rw [invB_mk]
    simp only [Bool.and_eq_true]
    refine ⟨⟨?_, by simp⟩, invListB_map_new kids⟩
    simp

theorem updateChildList_isEmpty (cs : List Node) (j : Nat) (q : List Nat) (f : Node → Node) :
    (updateChildList cs j q f).isEmpty = cs.isEmpty := by
  cases cs with
  | nil => rfl
  | cons c cs => cases j with
    | zero => rfl
    | succ j => rfl

theorem invListB_updateChildList : ∀ (cs : List Node) (j : Nat) (q : List Nat)
    (f : Node → Node), invListB cs = true →
    (∀ c, cs[j]? = some c → invB (updatePath c q f) = true) →
    invListB (updateChildList cs j q f) = true := by
  intro cs
  induction cs with
  | nil => intro j q f h hf; rfl
  | cons c cs ih =>
    intro j q f h hf
    simp only [invListB, Bool.and_eq_true] at h
    cases j with
    | zero =>
      show invListB (updatePath c q f :: cs) = true
      simp only [invListB, Bool.and_eq_true]
      exact ⟨hf c (by simp), h.2⟩
    | succ j =>
      show invListB (c :: updateChildList cs j q f) = true
      simp only [invListB, Bool.and_eq_true]
      exact ⟨h.1, ih j q f h.2 (fun d hd => hf d (by simpa using hd))⟩

/-- Updating along a path preserves the tree invariant as long as the new
node at the path satisfies it. -/
theorem invB_updatePath : ∀ (q : List Nat) (n : Node) (f : Node → Node),
    invB n = true →
    (∀ m, getPath n q = some m → invB (f m) = true) →
    invB (updatePath n q f) = true := by
  intro q
  induction q with
  | nil =>
    intro n f hn hf
    rw [updatePath_nil]
    exact hf n rfl
  | cons j q ih =>
    intro n f hn hf
    cases n with
    | mk i l e cs =>
      rw [updatePath_cons, invB_mk]
      rw [invB_mk] at hn
      simp only [Bool.and_eq_true] at hn ⊢
      refine ⟨⟨hn.1.1, ?_⟩, ?_⟩
      · rw [updateChildList_isEmpty]
        exact hn.1.2
      · refine invListB_updateChildList cs j q f hn.2 ?_
        intro c hc
        refine ih c f (invListB_getElem? cs hn.2 j c hc) ?_
        intro m hm
        apply hf
        rw [getPath_cons, Node.children_mk, hc]
        simpa using hm

/-! ### Lemmas about the visible list -/

theorem visitPaths_eq_cons (n : Node) (path : List Nat) (d : Nat) :
    visitPaths n path d =
      (path, d) :: (if n.expanded then visitPathsList n.children path 0 (d + 1) else []) := by
  cases n with
  | mk i l e cs => rfl

theorem walkVisible_eq_cons (n : Node) (d : Nat) :
    walkVisible n d =
      (n, d) :: (if n.expanded then walkVisibleList n.children (d + 1) else []) := by
  cases n with
  | mk i l e cs => rfl

mutual

/-- Every row of the path-instrumented visible list resolves: its path
extends the base path, points at an actual node, and its depth is the base
depth plus the number of extra steps. -/
theorem visitPaths_resolve : ∀ (n : Node) (path : List Nat) (d : Nat)
    (e : List Nat × Nat), e ∈ visitPaths n path d →
    ∃ q m, e.1 = path ++ q ∧ getPath n q = some m ∧ e.2 = d + q.length
  | .mk i l ex cs, path, d, e, he => by
      rw [visitPaths] at he
      rcases List.mem_cons.1 he with he | he
      · exact ⟨[], .mk i l ex cs, by simp [he], by simp, by simp [he]⟩
      · have hex : ex = true := by
          by_contra hex
          rw [Bool.not_eq_true] at hex
          rw [hex] at he
          simp at he
        rw [hex] at he
        simp only [if_true] at he
        rcases visitPathsList_resolve cs path 0 (d + 1) e he with ⟨idx, c, q, m, hc, hp, hg, hd⟩
        refine ⟨idx :: q, m, ?_, ?_, ?_⟩
        · simpa using hp
        · rw [getPath_cons, Node.children_mk, hc]
          simpa using hg
        · simp only [List.length_cons]
          omega

theorem visitPathsList_resolve : ∀ (cs : List Node) (path : List Nat) (j d : Nat)
    (e : List Nat × Nat), e ∈ visitPathsList cs path j d →
    ∃ idx c q m, cs[idx]? = some c ∧ e.1 = path ++ (j + idx) :: q ∧
      getPath c q = some m ∧ e.2 = d + q.length
  | [], path, j, d, e, he => by simp [visitPathsList] at he
  | c :: cs, path, j, d, e, he => by
      rw [visitPathsList] at he
      rcases List.mem_append.1 he with he | he
      · rcases visitPaths_resolve c (path ++ [j]) d e he with ⟨q, m, hp, hg, hd⟩
        refine ⟨0, c, q, m, by simp, ?_, hg, hd⟩
        rw [hp, List.append_assoc]
        simp
      · rcases visitPathsList_resolve cs path (j + 1) d e he with ⟨idx, c2, q, m, hc, hp, hg, hd⟩
        refine ⟨idx + 1, c2, q, m, by simpa using hc, ?_, hg, hd⟩
        rw [hp]
        have : j + 1 + idx = j + (idx + 1) := by omega
        rw [this]

end

mutual

/-- Every row of the visible list is either the root row or has its parent
row (its path minus the last step, one depth up) in the visible list too. -/
theorem visitPaths_parent : ∀ (n : Node) (path : List Nat) (d : Nat)
    (e : List Nat × Nat), e ∈ visitPaths n path d →
    (e.1 = path ∧ e.2 = d) ∨ (e.1.dropLast, e.2 - 1) ∈ visitPaths n path d
  | .mk i l ex cs, path, d, e, he => by
      rw [visitPaths] at he
      rcases List.mem_cons.1 he with he | he
      · exact Or.inl (by simp [he])
      · have hex : ex = true := by
          by_contra hex
          rw [Bool.not_eq_true] at hex
          rw [hex] at he
          simp at he
        rw [hex] at he
        simp only [if_true] at he
        rcases visitPathsList_parent cs path 0 (d + 1) e he with ⟨hp, hd⟩ | hmem
        · refine Or.inr ?_
          rw [visitPaths, hp, hd]
          simp [hex]
        · refine Or.inr ?_
          rw [visitPaths, hex]
          simp only [if_true]
          exact List.mem_cons_of_mem _ hmem

theorem visitPathsList_parent : ∀ (cs : List Node) (path : List Nat) (j d : Nat)
    (e : List Nat × Nat), e ∈ visitPathsList cs path j d →
    (e.1.dropLast = path ∧ e.2 = d) ∨ (e.1.dropLast, e.2 - 1) ∈ visitPathsList cs path j d
  | [], path, j, d, e, he => by simp [visitPathsList] at he
  | c :: cs, path, j, d, e, he => by
      rw [visitPathsList] at he
      rcases List.mem_append.1 he with he | he
      · rcases visitPaths_parent c (path ++ [j]) d e he with ⟨hp, hd⟩ | hmem
        · refine Or.inl ⟨?_, hd⟩
          rw [hp]
          exact List.dropLast_concat
        · refine Or.inr ?_
          rw [visitPathsList]
          exact List.mem_append_left _ hmem
      · rcases visitPathsList_parent cs path (j + 1) d e he with ⟨hp, hd⟩ | hmem
        · exact Or.inl ⟨hp, hd⟩
        · refine Or.inr ?_
          rw [visitPathsList]
          exact List.mem_append_right _ hmem

end

mutual

/-- The path-instrumented traversal and `_build_visible`'s own traversal
produce row lists of the same length (they visit the same rows). -/
theorem visitPaths_length : ∀ (n : Node) (path : List Nat) (d : Nat),
    (visitPaths n path d).length = (walkVisible n d).length
  | .mk i l ex cs, path, d => by
      rw [visitPaths, walkVisible]
      cases ex with
      | false => simp
      | true => simpa using visitPathsList_length cs path 0 (d + 1)

theorem visitPathsList_length : ∀ (cs : List Node) (path : List Nat) (j d : Nat),
    (visitPathsList cs path j d).length = (walkVisibleList cs d).length
  | [], path, j, d => rfl
  | c :: cs, path, j, d => by
      rw [visitPathsList, walkVisibleList]
      simp only [List.length_append]
      rw [visitPaths_length c (path ++ [j]) d, visitPathsList_length cs path (j + 1) d]

end

/-- The visible list always starts with the root row. -/
theorem visiblePaths_head (root : Node) :
    ∃ rest, visiblePaths root = ([], 0) :: rest := by
  rw [visiblePaths, visitPaths_eq_cons]
  exact ⟨_, rfl⟩

theorem visiblePaths_ne_nil (root : Node) : visiblePaths root ≠ [] := by
  rcases visiblePaths_head root with ⟨rest, h⟩
  rw [h]
  exact List.cons_ne_nil _ _

theorem visiblePaths_resolve (root : Node) (e : List Nat × Nat)
    (he : e ∈ visiblePaths root) :
    ∃ m, getPath root e.1 = some m ∧ e.2 = e.1.length := by
  rcases visitPaths_resolve root [] 0 e he with ⟨q, m, hp, hg, hd⟩
  simp only [List.nil_append] at hp
  subst hp
  exact ⟨m, hg, by simpa using hd⟩

theorem visiblePaths_parent_mem (root : Node) (e : List Nat × Nat)
    (he : e ∈ visiblePaths root) (hne : e.1 ≠ []) :
    (e.1.dropLast, e.2 - 1) ∈ visiblePaths root := by
  rcases visitPaths_parent root [] 0 e he with ⟨hp, _⟩ | hmem
  · exact absurd hp hne
  · exact hmem

/-! ### Cursor clamping and row lookup -/

theorem clampCursor_lt (visible : List (List Nat × Nat)) (c : Nat)
    (h : visible ≠ []) : clampCursor visible c < visible.length := by
  have hne : visible.isEmpty = false := by
    cases visible with
    | nil => exact absurd rfl h
    | cons e rest => rfl
  rw [clampCursor, hne]
  simp only [Bool.false_eq_true, if_false]
  have : 0 < visible.length := List.length_pos.2 h
  omega

theorem getD_mem_of_lt {α : Type} (l : List α) (i : Nat) (d : α) (h : i < l.length) :
    l.getD i d ∈ l := by
  rw [List.getD_eq_getElem?_getD, List.getElem?_eq_getElem h]
  exact List.getElem_mem h

/-- The row under the clamped cursor is a row of the visible list. -/
theorem cursorEntry_mem (root : Node) (c : Nat) :
    (visiblePaths root).getD (clampCursor (visiblePaths root) c) ([], 0) ∈
      visiblePaths root :=
  getD_mem_of_lt _ _ _ (clampCursor_lt _ _ (visiblePaths_ne_nil root))

/-! ### The parent search -/

theorem findFirstIdx_isSome : ∀ (l : List (List Nat × Nat)) (parent : List Nat) (i : Nat),
    (∃ e ∈ l, e.1 = parent) → ∃ j, findFirstIdx parent l i = some j := by
  intro l
  induction l with
  | nil => intro parent i h; simp at h
  | cons e rest ih =>
    intro parent i h
    by_cases hp : e.1 = parent
    · exact ⟨i, by simp [findFirstIdx, hp]⟩
    · rcases h with ⟨e2, he2, hp2⟩
      rcases List.mem_cons.1 he2 with rfl | he2
      · exact absurd hp2 hp
      · rcases ih parent (i + 1) ⟨e2, he2, hp2⟩ with ⟨j, hj⟩
        exact ⟨j, by simp [findFirstIdx, hp, hj]⟩

theorem findFirstIdx_spec : ∀ (l : List (List Nat × Nat)) (parent : List Nat) (i j : Nat),
    findFirstIdx parent l i = some j →
    i ≤ j ∧ j - i < l.length ∧ (∃ dp, l[j - i]? = some (parent, dp)) ∧
      ∀ k, k < j - i → ∀ e2, l[k]? = some e2 → e2.1 ≠ parent := by
  intro l
  induction l with
  | nil => intro parent i j h; simp [findFirstIdx] at h
  | cons e rest ih =>
    intro parent i j h
    rw [findFirstIdx] at h
    by_cases hp : e.1 = parent
    · rw [if_pos hp] at h
      have hij : i = j := by simpa using h
      subst hij
      refine ⟨Nat.le_refl i, by simp, ⟨e.2, ?_⟩, ?_⟩
      · simp [← hp]
      · intro k hk
        exact absurd hk (by omega)
    · rw [if_neg hp] at h
      rcases ih parent (i + 1) j h with ⟨hle, hlt, ⟨dp, hget⟩, hmin⟩
      have hji : j - i = (j - (i + 1)) + 1 := by omega
      refine ⟨by omega, by simp only [List.length_cons]; omega, ⟨dp, ?_⟩, ?_⟩
      · rw [hji]
        simpa using hget
      · intro k hk e2 he2
        cases k with
        | zero =>
          have hee : e = e2 := by simpa using he2
          rw [← hee]
          exact hp
        | succ k =>
          refine hmin k (by omega) e2 ?_
          simpa using he2

/-! ### Lemmas about loading and the loop transitions -/

theorem ensureLoaded_of_loaded (ds : DataSource) (n : Node) (h : n.loaded = true) :
    ensureLoaded ds n = .ok n := by
  rw [ensureLoaded, if_pos h]

theorem ensureLoaded_ok (ds : DataSource) (n n1 : Node)
    (h : ensureLoaded ds n = .ok n1) :
    (n.loaded = true ∧ n1 = n) ∨
      (n.loaded = false ∧ ∃ kids, get_children ds n.id = .ok kids ∧ n1 = n.withLoaded kids) := by
  rw [ensureLoaded] at h
  by_cases hl : n.loaded = true
  · rw [if_pos hl] at h
    exact Or.inl ⟨hl, by simpa using h.symm⟩
  · rw [if_neg hl] at h
    refine Or.inr ⟨by simpa using hl, ?_⟩
    cases hg : get_children ds n.id with
    | error e => rw [hg] at h; cases h
    | ok kids =>
      rw [hg] at h
      exact ⟨kids, rfl, by simpa using h.symm⟩

theorem ensureLoaded_error (ds : DataSource) (n : Node) (e : Unit)
    (h : ensureLoaded ds n = .error e) :
    n.loaded = false ∧ get_children ds n.id = .error e := by
  rw [ensureLoaded] at h
  by_cases hl : n.loaded = true
  · rw [if_pos hl] at h
    cases h
  · rw [if_neg hl] at h
    refine ⟨by simpa using hl, ?_⟩
    cases hg : get_children ds n.id with
    | error e2 =>
      cases e
      cases e2
      rfl
    | ok kids => rw [hg] at h; cases h

/-- Everything the handlers rely on about a successful `ensureLoaded`: the
node is now loaded, keeps its identifier and expansion flag, satisfies the
invariant, and its children are either unchanged or were empty before. -/
theorem ensureLoaded_ok_props (ds : DataSource) (n n1 : Node)
    (h : ensureLoaded ds n = .ok n1) (hinv : invB n = true) :
    n1.loaded = true ∧ n1.id = n.id ∧ invB n1 = true ∧
      (n1.children = n.children ∨ n.children = []) := by
  rcases ensureLoaded_ok ds n n1 h with ⟨hl, rfl⟩ | ⟨hl, kids, hg, rfl⟩
  · exact ⟨hl, rfl, hinv, Or.inl rfl⟩
  · exact ⟨by simp, by simp, invB_withLoaded n kids hinv,
      Or.inr ((invB_here n hinv).2 hl)⟩

theorem withCurrent_eq_handler (root : Node) (cursor : Nat)
    (handler : List Nat → Node → Step × List (List Nat)) (n : Node)
    (hn : getPath root ((visiblePaths root).getD cursor ([], 0)).1 = some n) :
    withCurrent root (visiblePaths root) cursor handler
      = handler ((visiblePaths root).getD cursor ([], 0)).1 n := by
  have hne : (visiblePaths root).isEmpty = false := by
    rcases visiblePaths_head root with ⟨rest, h⟩
    rw [h]
    rfl
  rw [withCurrent]
  simp only [hne, Bool.false_eq_true, if_false, hn]

/-- The node under the clamped cursor always exists. -/
theorem cursorNode_exists (root : Node) (cursor : Nat) :
    ∃ n, getPath root
        ((visiblePaths root).getD (clampCursor (visiblePaths root) cursor) ([], 0)).1
      = some n := by
  rcases visiblePaths_resolve root _ (cursorEntry_mem root cursor) with ⟨m, hm, _⟩
  exact ⟨m, hm⟩

theorem step_quit_eq (ds : DataSource) (s : BState) :
    step ds s .quit = (.done none, []) := rfl

theorem step_up_eq (ds : DataSource) (s : BState) :
    step ds s .up =
      (.next ⟨s.root, clampCursor (visiblePaths s.root) s.cursor - 1⟩, []) := rfl

theorem step_down_eq (ds : DataSource) (s : BState) :
    step ds s .down =
      (.next ⟨s.root,
        if (visiblePaths s.root).isEmpty then 0
        else min ((visiblePaths s.root).length - 1)
          (clampCursor (visiblePaths s.root) s.cursor + 1)⟩, []) := rfl

theorem step_right_eq (ds : DataSource) (s : BState) :
    step ds s .right =
      withCurrent s.root (visiblePaths s.root) (clampCursor (visiblePaths s.root) s.cursor)
        (fun p n => rightKey ds s.root p n (clampCursor (visiblePaths s.root) s.cursor)) := rfl

theorem step_left_eq (ds : DataSource) (s : BState) :
    step ds s .left =
      withCurrent s.root (visiblePaths s.root) (clampCursor (visiblePaths s.root) s.cursor)
        (fun p n => leftKey s.root p n (clampCursor (visiblePaths s.root) s.cursor)) := rfl

theorem step_enter_eq (ds : DataSource) (s : BState) :
    step ds s .enter =
      withCurrent s.root (visiblePaths s.root) (clampCursor (visiblePaths s.root) s.cursor)
        (fun p n => enterKey ds n p) := rfl

theorem step_space_eq (ds : DataSource) (s : BState) :
    step ds s .space =
      withCurrent s.root (visiblePaths s.root) (clampCursor (visiblePaths s.root) s.cursor)
        (fun p n => spaceKey ds s.root p n (clampCursor (visiblePaths s.root) s.cursor)) := rfl

theorem step_select_eq (ds : DataSource) (s : BState) :
    step ds s .select =
      withCurrent s.root (visiblePaths s.root) (clampCursor (visiblePaths s.root) s.cursor)
        (fun p n => (.done (some n.id), [])) := rfl

/-- Any continuing transition preserves the data-model invariant. -/
theorem step_next_inv (ds : DataSource) (s : BState) (k : Key) (s2 : BState)
    (fs : List (List Nat)) (hinv : invB s.root = true)
    (h : step ds s k = (.next s2, fs)) : invB s2.root = true := by
  cases k with
  | quit => rw [step_quit_eq] at h; simp at h
  | up =>
    rw [step_up_eq] at h
    simp only [Prod.mk.injEq, Step.next.injEq] at h
    rcases h with ⟨rfl, rfl⟩
    exact hinv
  | down =>
    rw [step_down_eq] at h
    simp only [Prod.mk.injEq, Step.next.injEq] at h
    rcases h with ⟨rfl, rfl⟩
    exact hinv
  | right =>
    rcases cursorNode_exists s.root s.cursor with ⟨n, hn⟩
    rw [step_right_eq, withCurrent_eq_handler _ _ _ n hn] at h
    have hinvn : invB n = true := invB_getPath _ s.root hinv n hn
    simp only [rightKey] at h
    cases hel : ensureLoaded ds n with
    | error e => rw [hel] at h; simp at h
    | ok n1 =>
      rw [hel] at h
      simp only [Prod.mk.injEq, Step.next.injEq] at h
      rcases h with ⟨rfl, rfl⟩
      rcases ensureLoaded_ok_props ds n n1 hel hinvn with ⟨hl1, hid1, hinv1, hch1⟩
      refine invB_updatePath _ s.root _ hinv ?_
      intro m hm
      by_cases hce : n1.children.isEmpty
      · simpa [hce] using hinv1
      · simp only [hce, Bool.false_eq_true, if_false]
        exact invB_setExpanded_of_loaded n1 true hinv1 hl1
  | left =>
    rcases cursorNode_exists s.root s.cursor with ⟨n, hn⟩
    rw [step_left_eq, withCurrent_eq_handler _ _ _ n hn] at h
    simp only [leftKey] at h
    by_cases he : n.expanded = true
    · rw [if_pos he] at h
      simp only [Prod.mk.injEq, Step.next.injEq] at h
      rcases h with ⟨rfl, rfl⟩
      refine invB_updatePath _ s.root _ hinv ?_
      intro m hm
      exact invB_setExpanded_false m (invB_getPath _ s.root hinv m hm)
    · rw [if_neg he] at h
      by_cases hp : (((visiblePaths s.root).getD
          (clampCursor (visiblePaths s.root) s.cursor) ([], 0)).1).isEmpty
      · rw [if_pos hp] at h
        simp only [Prod.mk.injEq, Step.next.injEq] at h
        rcases h with ⟨rfl, rfl⟩
        exact hinv
      · rw [if_neg hp] at h
        simp only [Prod.mk.injEq, Step.next.injEq] at h
        rcases h with ⟨rfl, rfl⟩
        exact hinv
  | enter =>
    rcases cursorNode_exists s.root s.cursor with ⟨n, hn⟩
    rw [step_enter_eq, withCurrent_eq_handler _ _ _ n hn] at h
    simp only [enterKey] at h
    cases hel : ensureLoaded ds n with
    | error e => rw [hel] at h; simp at h
    | ok n1 => rw [hel] at h; simp at h
  | space =>
    rcases cursorNode_exists s.root s.cursor with ⟨n, hn⟩
    rw [step_space_eq, withCurrent_eq_handler _ _ _ n hn] at h
    have hinvn : invB n = true := invB_getPath _ s.root hinv n hn
    simp only [spaceKey] at h
    cases hel : ensureLoaded ds n with
    | error e => rw [hel] at h; simp at h
    | ok n1 =>
      rw [hel] at h
      simp only [Prod.mk.injEq, Step.next.injEq] at h
      rcases h with ⟨rfl, rfl⟩
      rcases ensureLoaded_ok_props ds n n1 hel hinvn with ⟨hl1, hid1, hinv1, hch1⟩
      refine invB_updatePath _ s.root _ hinv ?_
      intro m hm
      exact invB_setExpanded_of_loaded n1 _ hinv1 hl1
  | select =>
    rcases cursorNode_exists s.root s.cursor with ⟨n, hn⟩
    rw [step_select_eq, withCurrent_eq_handler _ _ _ n hn] at h
    simp at h

/-- Any continuing transition leaves every already-loaded node loaded, at
the same path and with the same identifier: nothing is ever unloaded or
re-created. -/
theorem step_next_loaded (ds : DataSource) (s : BState) (k : Key) (s2 : BState)
    (fs : List (List Nat)) (hinv : invB s.root = true)
    (h : step ds s k = (.next s2, fs)) :
    ∀ p m, getPath s.root p = some m → m.loaded = true →
      ∃ m2, getPath s2.root p = some m2 ∧ m2.loaded = true ∧ m2.id = m.id := by
  cases k with
  | quit => rw [step_quit_eq] at h; simp at h
  | up =>
    rw [step_up_eq] at h
    simp only [Prod.mk.injEq, Step.next.injEq] at h
    rcases h with ⟨rfl, rfl⟩
    exact fun p m hp hl => ⟨m, hp, hl, rfl⟩
  | down =>
    rw [step_down_eq] at h
    simp only [Prod.mk.injEq, Step.next.injEq] at h
    rcases h with ⟨rfl, rfl⟩
    exact fun p m hp hl => ⟨m, hp, hl, rfl⟩
  | right =>
    rcases cursorNode_exists s.root s.cursor with ⟨n, hn⟩
    rw [step_right_eq, withCurrent_eq_handler _ _ _ n hn] at h
    have hinvn : invB n = true := invB_getPath _ s.root hinv n hn
    simp only [rightKey] at h
    cases hel : ensureLoaded ds n with
    | error e => rw [hel] at h; simp at h
    | ok n1 =>
      rw [hel] at h
      simp only [Prod.mk.injEq, Step.next.injEq] at h
      rcases h with ⟨rfl, rfl⟩
      rcases ensureLoaded_ok_props ds n n1 hel hinvn with ⟨hl1, hid1, hinv1, hch1⟩
      refine getPath_updatePath_loaded _ s.root _ ?_
      intro m hm
      have hmn : m = n := by
        rw [hn] at hm
        exact (Option.some.inj hm).symm
      subst hmn
      constructor
      · intro hl
        by_cases hce : n1.children.isEmpty
        · simp only [hce, if_true]
          exact ⟨hl1, hid1⟩
        · simp only [hce, Bool.false_eq_true, if_false]
          constructor
          · rw [Node.setExpanded_loaded]
            exact hl1
          · rw [Node.setExpanded_id]
            exact hid1
      · by_cases hce : n1.children.isEmpty
        · simp only [hce, if_true]
          exact hch1
        · simp only [hce, Bool.false_eq_true, if_false, Node.setExpanded_children]
          exact hch1
  | left =>
    rcases cursorNode_exists s.root s.cursor with ⟨n, hn⟩
    rw [step_left_eq, withCurrent_eq_handler _ _ _ n hn] at h
    simp only [leftKey] at h
    by_cases he : n.expanded = true
    · rw [if_pos he] at h
      simp only [Prod.mk.injEq, Step.next.injEq] at h
      rcases h with ⟨rfl, rfl⟩
      refine getPath_updatePath_loaded _ s.root _ ?_
      intro m hm
      exact ⟨fun hl => ⟨by simpa using hl, by simp⟩, Or.inl (by simp)⟩
    · rw [if_neg he] at h
      by_cases hp : (((visiblePaths s.root).getD
          (clampCursor (visiblePaths s.root) s.cursor) ([], 0)).1).isEmpty
      · rw [if_pos hp] at h
        simp only [Prod.mk.injEq, Step.next.injEq] at h
        rcases h with ⟨rfl, rfl⟩
        exact fun p m hp2 hl => ⟨m, hp2, hl, rfl⟩
      · rw [if_neg hp] at h
        simp only [Prod.mk.injEq, Step.next.injEq] at h
        rcases h with ⟨rfl, rfl⟩
        exact fun p m hp2 hl => ⟨m, hp2, hl, rfl⟩
  | enter =>
    rcases cursorNode_exists s.root s.cursor with ⟨n, hn⟩
    rw [step_enter_eq, withCurrent_eq_handler _ _ _ n hn] at h
    simp only [enterKey] at h
    cases hel : ensureLoaded ds n with
    | error e => rw [hel] at h; simp at h
    | ok n1 => rw [hel] at h; simp at h
  | space =>
    rcases cursorNode_exists s.root s.cursor with ⟨n, hn⟩
    rw [step_space_eq, withCurrent_eq_handler _ _ _ n hn] at h
    have hinvn : invB n = true := invB_getPath _ s.root hinv n hn
    simp only [spaceKey] at h
    cases hel : ensureLoaded ds n with
    | error e => rw [hel] at h; simp at h
    | ok n1 =>
      rw [hel] at h
      simp only [Prod.mk.injEq, Step.next.injEq] at h
      rcases h with ⟨rfl, rfl⟩
      rcases ensureLoaded_ok_props ds n n1 hel hinvn with ⟨hl1, hid1, hinv1, hch1⟩
      refine getPath_updatePath_loaded _ s.root _ ?_
      intro m hm
      have hmn : m = n := by
        rw [hn] at hm
        exact (Option.some.inj hm).symm
      subst hmn
      refine ⟨fun hl => ⟨by simpa using hl1, by simpa using hid1⟩, ?_⟩
      rw [Node.setExpanded_children]
      exact hch1
  | select =>
    rcases cursorNode_exists s.root s.cursor with ⟨n, hn⟩
    rw [step_select_eq, withCurrent_eq_handler _ _ _ n hn] at h
    simp at h

/-- A transition fetches children at most for the node under the cursor, and
only when that node is not yet loaded. -/
theorem step_fetch_guard (ds : DataSource) (s : BState) (k : Key)
    (out : Step) (fs : List (List Nat)) (h : step ds s k = (out, fs)) (hfs : fs ≠ []) :
    ∃ n, fs = [((visiblePaths s.root).getD (clampCursor (visiblePaths s.root) s.cursor)
          ([], 0)).1] ∧
      getPath s.root ((visiblePaths s.root).getD (clampCursor (visiblePaths s.root) s.cursor)
          ([], 0)).1 = some n ∧ n.loaded = false := by
  cases k with
  | quit =>
    rw [step_quit_eq] at h
    simp only [Prod.mk.injEq] at h
    exact absurd h.2.symm hfs
  | up =>
    rw [step_up_eq] at h
    simp only [Prod.mk.injEq] at h
    exact absurd h.2.symm hfs
  | down =>
    rw [step_down_eq] at h
    simp only [Prod.mk.injEq] at h
    exact absurd h.2.symm hfs
  | right =>
    rcases cursorNode_exists s.root s.cursor with ⟨n, hn⟩
    rw [step_right_eq, withCurrent_eq_handler _ _ _ n hn] at h
    simp only [rightKey] at h
    cases hel : ensureLoaded ds n with
    | error e =>
      rw [hel] at h
      simp only [Prod.mk.injEq] at h
      exact ⟨n, h.2.symm, hn, (ensureLoaded_error ds n e hel).1⟩
    | ok n1 =>
      rw [hel] at h
      simp only [Prod.mk.injEq] at h
      by_cases hl : n.loaded = true
      · rw [if_pos hl] at h
        exact absurd h.2.symm hfs
      · rw [if_neg hl] at h
        exact ⟨n, h.2.symm, hn, by simpa using hl⟩
  | left =>
    rcases cursorNode_exists s.root s.cursor with ⟨n, hn⟩
    rw [step_left_eq, withCurrent_eq_handler _ _ _ n hn] at h
    simp only [leftKey] at h
    by_cases he : n.expanded = true
    · rw [if_pos he] at h
      simp only [Prod.mk.injEq] at h
      exact absurd h.2.symm hfs
    · rw [if_neg he] at h
      by_cases hp : (((visiblePaths s.root).getD
          (clampCursor (visiblePaths s.root) s.cursor) ([], 0)).1).isEmpty
      · rw [if_pos hp] at h
        simp only [Prod.mk.injEq] at h
        exact absurd h.2.symm hfs
      · rw [if_neg hp] at h
        simp only [Prod.mk.injEq] at h
        exact absurd h.2.symm hfs
  | enter =>
    rcases cursorNode_exists s.root s.cursor with ⟨n, hn⟩
    rw [step_enter_eq, withCurrent_eq_handler _ _ _ n hn] at h
    simp only [enterKey] at h
    cases hel : ensureLoaded ds n with
    | error e =>
      rw [hel] at h
      simp only [Prod.mk.injEq] at h
      exact ⟨n, h.2.symm, hn, (ensureLoaded_error ds n e hel).1⟩
    | ok n1 =>
      rw [hel] at h
      simp only [Prod.mk.injEq] at h
      by_cases hl : n.loaded = true
      · rw [if_pos hl] at h
        exact absurd h.2.symm hfs
      · rw [if_neg hl] at h
        exact ⟨n, h.2.symm, hn, by simpa using hl⟩
  | space =>
    rcases cursorNode_exists s.root s.cursor with ⟨n, hn⟩
    rw [step_space_eq, withCurrent_eq_handler _ _ _ n hn] at h
    simp only [spaceKey] at h
    cases hel : ensureLoaded ds n with
    | error e =>
      rw [hel] at h
      simp only [Prod.mk.injEq] at h
      exact ⟨n, h.2.symm, hn, (ensureLoaded_error ds n e hel).1⟩
    | ok n1 =>
      rw [hel] at h
      simp only [Prod.mk.injEq] at h
      by_cases hl : n.loaded = true
      · rw [if_pos hl] at h
        exact absurd h.2.symm hfs
      · rw [if_neg hl] at h
        exact ⟨n, h.2.symm, hn, by simpa using hl⟩
  | select =>
    rcases cursorNode_exists s.root s.cursor with ⟨n, hn⟩
    rw [step_select_eq, withCurrent_eq_handler _ _ _ n hn] at h
    simp only [Prod.mk.injEq] at h
    exact absurd h.2.symm hfs

/-- After a continuing transition that fetched a node's children, the node
at the fetched path is loaded. -/
theorem step_fetched_loaded (ds : DataSource) (s : BState) (k : Key) (s2 : BState)
    (fs : List (List Nat)) (h : step ds s k = (.next s2, fs))
    (p : List Nat) (hp : p ∈ fs) :
    ∃ m2, getPath s2.root p = some m2 ∧ m2.loaded = true := by
  cases k with
  | quit => rw [step_quit_eq] at h; simp at h
  | up =>
    rw [step_up_eq] at h
    simp only [Prod.mk.injEq, Step.next.injEq] at h
    rcases h with ⟨rfl, rfl⟩
    simp at hp
  | down =>
    rw [step_down_eq] at h
    simp only [Prod.mk.injEq, Step.next.injEq] at h
    rcases h with ⟨rfl, rfl⟩
    simp at hp
  | right =>
    rcases cursorNode_exists s.root s.cursor with ⟨n, hn⟩
    rw [step_right_eq, withCurrent_eq_handler _ _ _ n hn] at h
    simp only [rightKey] at h
    cases hel : ensureLoaded ds n with
    | error e => rw [hel] at h; simp at h
    | ok n1 =>
      rw [hel] at h
      simp only [Prod.mk.injEq, Step.next.injEq] at h
      rcases h with ⟨rfl, rfl⟩
      by_cases hl : n.loaded = true
      · rw [if_pos hl] at hp
        simp at hp
      · rw [if_neg hl] at hp
        have hpp : p = ((visiblePaths s.root).getD
            (clampCursor (visiblePaths s.root) s.cursor) ([], 0)).1 := by
          simpa using hp
        subst hpp
        refine ⟨_, getPath_updatePath_self _ s.root n _ hn, ?_⟩
        rcases ensureLoaded_ok ds n n1 hel with ⟨hl2, _⟩ | ⟨_, kids, _, rfl⟩
        · exact absurd hl2 hl
        · split <;> simp
  | left =>
    rcases cursorNode_exists s.root s.cursor with ⟨n, hn⟩
    rw [step_left_eq, withCurrent_eq_handler _ _ _ n hn] at h
    simp only [leftKey] at h
    by_cases he : n.expanded = true
    · rw [if_pos he] at h
      simp only [Prod.mk.injEq, Step.next.injEq] at h
      rcases h with ⟨rfl, rfl⟩
      simp at hp
    · rw [if_neg he] at h
      by_cases hpe : (((visiblePaths s.root).getD
          (clampCursor (visiblePaths s.root) s.cursor) ([], 0)).1).isEmpty
      · rw [if_pos hpe] at h
        simp only [Prod.mk.injEq, Step.next.injEq] at h
        rcases h with ⟨rfl, rfl⟩
        simp at hp
      · rw [if_neg hpe] at h
        simp only [Prod.mk.injEq, Step.next.injEq] at h
        rcases h with ⟨rfl, rfl⟩
        simp at hp
  | enter =>
    rcases cursorNode_exists s.root s.cursor with ⟨n, hn⟩
    rw [step_enter_eq, withCurrent_eq_handler _ _ _ n hn] at h
    simp only [enterKey] at h
    cases hel : ensureLoaded ds n with
    | error e => rw [hel] at h; simp at h
    | ok n1 => rw [hel] at h; simp at h
  | space =>
    rcases cursorNode_exists s.root s.cursor with ⟨n, hn⟩
    rw [step_space_eq, withCurrent_eq_handler _ _ _ n hn] at h
    simp only [spaceKey] at h
    cases hel : ensureLoaded ds n with
    | error e => rw [hel] at h; simp at h
    | ok n1 =>
      rw [hel] at h
      simp only [Prod.mk.injEq, Step.next.injEq] at h
      rcases h with ⟨rfl, rfl⟩
      by_cases hl : n.loaded = true
      · rw [if_pos hl] at hp
        simp at hp
      · rw [if_neg hl] at hp
        have hpp : p = ((visiblePaths s.root).getD
            (clampCursor (visiblePaths s.root) s.cursor) ([], 0)).1 := by
          simpa using hp
        subst hpp
        refine ⟨_, getPath_updatePath_self _ s.root n _ hn, ?_⟩
        rcases ensureLoaded_ok ds n n1 hel with ⟨hl2, _⟩ | ⟨_, kids, _, rfl⟩
        · exact absurd hl2 hl
        · simp
  | select =>
    rcases cursorNode_exists s.root s.cursor with ⟨n, hn⟩
    rw [step_select_eq, withCurrent_eq_handler _ _ _ n hn] at h
    simp at h

/-- A node that is loaded is never fetched again during the rest of the
session. -/
theorem runKeys_not_fetched (ds : DataSource) : ∀ (ks : List Key) (s : BState)
    (p : List Nat) (m : Node), invB s.root = true → getPath s.root p = some m →
    m.loaded = true → p ∉ (runKeys ds s ks).2 := by
  intro ks
  induction ks with
  | nil => intro s p m _ _ _ hmem; simp [runKeys] at hmem
  | cons k ks ih =>
    intro s p m hinv hp hl hmem
    rw [runKeys] at hmem
    rcases hstep : step ds s k with ⟨out, fs⟩
    have hguard : p ∈ fs → False := by
      intro hpf
      have hfs : fs ≠ [] := List.ne_nil_of_mem hpf
      rcases step_fetch_guard ds s k out fs hstep hfs with ⟨n, hfseq, hn, hnl⟩
      rw [hfseq] at hpf
      have hpp : p = ((visiblePaths s.root).getD
          (clampCursor (visiblePaths s.root) s.cursor) ([], 0)).1 := by
        simpa using hpf
      rw [← hpp] at hn
      rw [hp] at hn
      have : m = n := Option.some.inj hn
      rw [this, hnl] at hl
      cases hl
    rw [hstep] at hmem
    cases out with
    | next s2 =>
      simp only [List.mem_append] at hmem
      rcases hmem with hmem | hmem
      · exact hguard hmem
      · rcases step_next_loaded ds s k s2 fs hinv hstep p m hp hl with ⟨m2, hp2, hl2, _⟩
        exact ih s2 p m2 (step_next_inv ds s k s2 fs hinv hstep) hp2 hl2 hmem
    | done sel => exact hguard hmem
    | fault => exact hguard hmem

/-- Over any key sequence, no node path is ever fetched twice. -/
theorem runKeys_fetch_nodup (ds : DataSource) : ∀ (ks : List Key) (s : BState),
    invB s.root = true → (runKeys ds s ks).2.Nodup := by
  intro ks
  induction ks with
  | nil => intro s _; simp [runKeys]
  | cons k ks ih =>
    intro s hinv
    rw [runKeys]
    rcases hstep : step ds s k with ⟨out, fs⟩
    have hfs1 : fs = [] ∨ ∃ p2 n, fs = [p2] ∧ getPath s.root p2 = some n ∧
        n.loaded = false := by
      by_cases hfs : fs = []
      · exact Or.inl hfs
      · rcases step_fetch_guard ds s k out fs hstep hfs with ⟨n, hfseq, hn, hnl⟩
        exact Or.inr ⟨_, n, hfseq, hn, hnl⟩
    cases out with
    | next s2 =>
      show (fs ++ (runKeys ds s2 ks).2).Nodup
      rcases hfs1 with rfl | ⟨p2, n, rfl, hn, hnl⟩
      · simpa using ih s2 (step_next_inv ds s k s2 _ hinv hstep)
      · simp only [List.singleton_append, List.nodup_cons]
        refine ⟨?_, ih s2 (step_next_inv ds s k s2 _ hinv hstep)⟩
        rcases step_fetched_loaded ds s k s2 _ hstep p2 (by simp) with ⟨m2, hp2, hl2⟩
        exact runKeys_not_fetched ds ks s2 p2 m2
          (step_next_inv ds s k s2 _ hinv hstep) hp2 hl2
    | done sel =>
      show fs.Nodup
      rcases hfs1 with rfl | ⟨p2, n, rfl, _, _⟩
      · exact List.nodup_nil
      · simp
    | fault =>
      show fs.Nodup
      rcases hfs1 with rfl | ⟨p2, n, rfl, _, _⟩
      · exact List.nodup_nil
      · simp

/-- Root construction establishes the invariant. -/
theorem initState_inv (ds : DataSource) (rootId : Nat) :
    invB (initState ds rootId).root = true := by
  have h : ∀ (K : List Nat), invB (Node.mk rootId true true (K.map Node.new)) = true := by
    intro K
    rw [invB_mk]
    simp [invListB_map_new]
  exact h _

/-- Every reachable state satisfies the invariant. -/
theorem reachable_inv (ds : DataSource) (rootId : Nat) (s : BState)
    (h : Reachable ds rootId s) : invB s.root = true := by
  induction h with
  | init => exact initState_inv ds rootId
  | next hr hstep ih => exact step_next_inv ds _ _ _ _ ih hstep

mutual

theorem invB_allNodes : ∀ (n : Node), invB n = true →
    ∀ m ∈ allNodes n, (m.expanded = true → m.loaded = true) ∧
      (m.loaded = false → m.children = [])
  | .mk i l e cs, h, m, hm => by
      rw [allNodes] at hm
      rcases List.mem_cons.1 hm with rfl | hm
      · exact invB_here _ h
      · rw [invB_mk] at h
        simp only [Bool.and_eq_true] at h
        exact invListB_allNodesList cs h.2 m hm

theorem invListB_allNodesList : ∀ (cs : List Node), invListB cs = true →
    ∀ m ∈ allNodesList cs, (m.expanded = true → m.loaded = true) ∧
      (m.loaded = false → m.children = [])
  | [], h, m, hm => by rw [allNodesList] at hm; simp at hm
  | c :: cs, h, m, hm => by
      rw [allNodesList] at hm
      simp only [invListB, Bool.and_eq_true] at h
      rcases List.mem_append.1 hm with hm | hm
      · exact invB_allNodes c h.1 m hm
      · exact invListB_allNodesList cs h.2 m hm

end

/-! ### `_build_visible` against the worded specification -/

theorem attach_map_visibleSpec (cs : List Node) (d : Nat) :
    cs.attach.map (fun c => visibleSpec c.1 d) = cs.map (fun c => visibleSpec c d) :=
  List.attach_map_val cs (fun c => visibleSpec c d)

mutual

theorem walkVisible_eq_spec : ∀ (n : Node) (d : Nat), walkVisible n d = visibleSpec n d
  | .mk i l e cs, d => by
      rw [walkVisible, visibleSpec]
      simp only [Node.expanded_mk, Node.children_mk, attach_map_visibleSpec]
      cases e with
      | false => simp
      | true =>
        simp only [if_true]
        rw [walkVisibleList_eq_spec cs (d + 1)]

theorem walkVisibleList_eq_spec : ∀ (cs : List Node) (d : Nat),
    walkVisibleList cs d = (cs.map (fun c => visibleSpec c d)).flatten
  | [], d => rfl
  | c :: cs, d => by
      rw [walkVisibleList, List.map_cons, List.flatten_cons,
        walkVisible_eq_spec c d, walkVisibleList_eq_spec cs d]

end

theorem build_visible_head (root : Node) :
    ∃ rest, build_visible root = (root, 0) :: rest := by
  rw [build_visible, walkVisible_eq_cons]
  exact ⟨_, rfl⟩

/-! ### Characterisation of the individual key transitions -/

theorem step_left_collapse (ds : DataSource) (s : BState) (n : Node)
    (hn : getPath s.root ((visiblePaths s.root).getD (clampCursor (visiblePaths s.root)
        s.cursor) ([], 0)).1 = some n)
    (he : n.expanded = true) :
    step ds s .left = (.next ⟨updatePath s.root
        ((visiblePaths s.root).getD (clampCursor (visiblePaths s.root) s.cursor) ([], 0)).1
        (fun m => m.setExpanded false),
      clampCursor (visiblePaths s.root) s.cursor⟩, []) := by
  rw [step_left_eq, withCurrent_eq_handler _ _ _ n hn, leftKey, if_pos he]

theorem step_left_parent (ds : DataSource) (s : BState) (n : Node)
    (hn : getPath s.root ((visiblePaths s.root).getD (clampCursor (visiblePaths s.root)
        s.cursor) ([], 0)).1 = some n)
    (he : n.expanded = false)
    (hne : ((visiblePaths s.root).getD (clampCursor (visiblePaths s.root) s.cursor)
        ([], 0)).1 ≠ []) :
    ∃ j, step ds s .left = (.next ⟨s.root, j⟩, []) ∧ j < (visiblePaths s.root).length ∧
      (∃ dp, (visiblePaths s.root)[j]? = some
        ((((visiblePaths s.root).getD (clampCursor (visiblePaths s.root) s.cursor)
          ([], 0)).1).dropLast, dp)) ∧
      ∀ k2, k2 < j → ∀ e2, (visiblePaths s.root)[k2]? = some e2 →
        e2.1 ≠ (((visiblePaths s.root).getD (clampCursor (visiblePaths s.root) s.cursor)
          ([], 0)).1).dropLast := by
  have hmem := cursorEntry_mem s.root s.cursor
  have hpar := visiblePaths_parent_mem s.root _ hmem hne
  rcases findFirstIdx_isSome (visiblePaths s.root)
      ((((visiblePaths s.root).getD (clampCursor (visiblePaths s.root) s.cursor)
        ([], 0)).1).dropLast) 0 ⟨_, hpar, rfl⟩ with ⟨j, hj⟩
  rcases findFirstIdx_spec (visiblePaths s.root) _ 0 j hj with ⟨_, hlt, hrow, hmin⟩
  refine ⟨j, ?_, by simpa using hlt, by simpa using hrow, ?_⟩
  · rw [step_left_eq, withCurrent_eq_handler _ _ _ n hn, leftKey, if_neg (by rw [he]; simp)]
    rw [if_neg (by simpa [List.isEmpty_iff] using hne)]
    have hj2 := hj
    simp only [List.getD_eq_getElem?_getD] at hj2
    simp [hj, hj2]
  · intro k2 hk2 e2 he2
    exact hmin k2 (by simpa using hk2) e2 he2

theorem step_enter_loaded (ds : DataSource) (s : BState) (n : Node)
    (hn : getPath s.root ((visiblePaths s.root).getD (clampCursor (visiblePaths s.root)
        s.cursor) ([], 0)).1 = some n)
    (hl : n.loaded = true) :
    step ds s .enter = (.done (some n.id), []) := by
  rw [step_enter_eq, withCurrent_eq_handler _ _ _ n hn, enterKey,
    ensureLoaded_of_loaded ds n hl]
  simp [hl]

theorem step_enter_fetch_ok (ds : DataSource) (s : BState) (n : Node)
    (hn : getPath s.root ((visiblePaths s.root).getD (clampCursor (visiblePaths s.root)
        s.cursor) ([], 0)).1 = some n)
    (hl : n.loaded = false) (kids : List Nat)
    (hg : get_children ds n.id = .ok kids) :
    step ds s .enter = (.done (some n.id),
      [((visiblePaths s.root).getD (clampCursor (visiblePaths s.root) s.cursor)
        ([], 0)).1]) := by
  rw [step_enter_eq, withCurrent_eq_handler _ _ _ n hn, enterKey, ensureLoaded,
    if_neg (by rw [hl]; simp), hg]
  simp [hl]

theorem step_enter_fetch_error (ds : DataSource) (s : BState) (n : Node)
    (hn : getPath s.root ((visiblePaths s.root).getD (clampCursor (visiblePaths s.root)
        s.cursor) ([], 0)).1 = some n)
    (hl : n.loaded = false)
    (hg : get_children ds n.id = .error ()) :
    step ds s .enter = (.fault,
      [((visiblePaths s.root).getD (clampCursor (visiblePaths s.root) s.cursor)
        ([], 0)).1]) := by
  rw [step_enter_eq, withCurrent_eq_handler _ _ _ n hn, enterKey, ensureLoaded,
    if_neg (by rw [hl]; simp), hg]

theorem step_right_fetch_error (ds : DataSource) (s : BState) (n : Node)
    (hn : getPath s.root ((visiblePaths s.root).getD (clampCursor (visiblePaths s.root)
        s.cursor) ([], 0)).1 = some n)
    (hl : n.loaded = false)
    (hg : get_children ds n.id = .error ()) :
    step ds s .right = (.fault,
      [((visiblePaths s.root).getD (clampCursor (visiblePaths s.root) s.cursor)
        ([], 0)).1]) := by
  rw [step_right_eq, withCurrent_eq_handler _ _ _ n hn, rightKey, ensureLoaded,
    if_neg (by rw [hl]; simp), hg]

theorem step_space_fetch_error (ds : DataSource) (s : BState) (n : Node)
    (hn : getPath s.root ((visiblePaths s.root).getD (clampCursor (visiblePaths s.root)
        s.cursor) ([], 0)).1 = some n)
    (hl : n.loaded = false)
    (hg : get_children ds n.id = .error ()) :
    step ds s .space = (.fault,
      [((visiblePaths s.root).getD (clampCursor (visiblePaths s.root) s.cursor)
        ([], 0)).1]) := by
  rw [step_space_eq, withCurrent_eq_handler _ _ _ n hn, spaceKey, ensureLoaded,
    if_neg (by rw [hl]; simp), hg]

/-- Root construction with a failing root fetch: the failure is swallowed,
the root ends loaded and expanded with no children. -/
theorem initState_error (ds : DataSource) (rootId : Nat)
    (hg : get_children ds rootId = .error ()) :
    initState ds rootId = ⟨Node.mk rootId true true [], 0⟩ := by
  rw [initState, hg]
  rfl

@[simp] theorem Node.id_new (i : Nat) : (Node.new i).id = i := rfl

/-- A successful expand of a not-yet-loaded node installs exactly the fetched
children, in the fetched order. -/
theorem step_right_children (ds : DataSource) (s : BState) (n : Node)
    (hn : getPath s.root ((visiblePaths s.root).getD (clampCursor (visiblePaths s.root)
        s.cursor) ([], 0)).1 = some n)
    (hl : n.loaded = false) (kids : List Nat)
    (hg : get_children ds n.id = .ok kids) :
    ∃ s2, step ds s .right = (.next s2,
        [((visiblePaths s.root).getD (clampCursor (visiblePaths s.root) s.cursor)
          ([], 0)).1]) ∧
      ∃ n2, getPath s2.root ((visiblePaths s.root).getD (clampCursor (visiblePaths s.root)
          s.cursor) ([], 0)).1 = some n2 ∧ n2.children.map Node.id = kids ∧
        n2.loaded = true := by
  rw [step_right_eq, withCurrent_eq_handler _ _ _ n hn, rightKey, ensureLoaded,
    if_neg (by rw [hl]; simp), hg]
  refine ⟨_, by rw [if_neg (by rw [hl]; simp)], ?_⟩
  refine ⟨_, getPath_updatePath_self _ s.root n _ hn, ?_, ?_⟩
  · split <;> simp [List.map_map, Function.comp_def]
  · split <;> simp

/-! ### Claim theorems -/

/-- C1 counterexample: the claim says a Data Source failure during any load
attempt is swallowed (node marked loaded with empty children, no error
propagated).  On the code, pressing expand/right with the cursor on the
unloaded node 1 of `dsFail` (whose fetch raises) makes the loop iteration
abort with an uncaught exception instead of continuing: the failure is not
swallowed and does propagate. -/
theorem c1_counterexample :
    (step dsFail ⟨(initState dsFail 0).root, 1⟩ .right).1.isFault = true ∧
      (step dsFail ⟨(initState dsFail 0).root, 1⟩ .right).1.isDone = none :=
  ⟨rfl, rfl⟩

/-- C1 (amended): only the root-construction load swallows a Data Source
failure — the root then ends `loaded = true`, `expanded = true` with empty
children.  A fetch failure during a load attempt triggered by expand/right,
Enter or Space is not caught: the loop iteration faults and the exception
propagates out of the browsing operation. -/
theorem c1_fetch_failure_semantics (ds1 ds2 : DataSource) (rootId : Nat) (s : BState)
    (n : Node)
    (hg1 : get_children ds1 rootId = .error ())
    (hn : getPath s.root ((visiblePaths s.root).getD (clampCursor (visiblePaths s.root)
        s.cursor) ([], 0)).1 = some n)
    (hl : n.loaded = false)
    (hg2 : get_children ds2 n.id = .error ()) :
    initState ds1 rootId = ⟨Node.mk rootId true true [], 0⟩ ∧
      (step ds2 s .right).1 = .fault ∧ (step ds2 s .enter).1 = .fault ∧
      (step ds2 s .space).1 = .fault := by
  refine ⟨initState_error ds1 rootId hg1, ?_, ?_, ?_⟩
  · rw [step_right_fetch_error ds2 s n hn hl hg2]
  · rw [step_enter_fetch_error ds2 s n hn hl hg2]
  · rw [step_space_fetch_error ds2 s n hn hl hg2]

/-- Witness for C1: concrete instantiation with `dsFail` (root id 5 fails;
node 1 of the id-0 tree fails). -/
theorem c1_witness :
    initState dsFail 5 = ⟨Node.mk 5 true true [], 0⟩ ∧
      (step dsFail ⟨(initState dsFail 0).root, 1⟩ .right).1 = .fault ∧
      (step dsFail ⟨(initState dsFail 0).root, 1⟩ .enter).1 = .fault ∧
      (step dsFail ⟨(initState dsFail 0).root, 1⟩ .space).1 = .fault :=
  c1_fetch_failure_semantics dsFail dsFail 5 ⟨(initState dsFail 0).root, 1⟩ (Node.new 1)
    rfl (by decide) rfl rfl

/-- C2: the claim says the alternate-screen restore step runs after the
session on every exit path.  In the code, `tree_select` executes
`_exit_alt_screen()` before `curses.wrapper(_ui)` (which enters the
alternate screen at its top), and no restore call occurs anywhere after the
session: the restore event is the very first event of every run and never
occurs again. -/
theorem c2_exit_before_session (keys : List Key) :
    tree_select_events keys =
      TermEvent.exitAltScreen :: TermEvent.enterAltScreen ::
        keys.map (fun _ => TermEvent.loopIteration) ∧
      (uiEvents keys).count TermEvent.exitAltScreen = 0 := by
  refine ⟨rfl, ?_⟩
  rw [List.count_eq_zero]
  intro hmem
  rcases List.mem_cons.1 hmem with h | h
  · cases h
  · rcases List.mem_map.1 h with ⟨k, _, hk⟩
    cases hk

/-- C3: `_build_visible` is exactly the pre-order depth-first traversal the
specification words (root at depth 0 always included; a node's children
follow it in original order at depth+1 iff its `expanded` flag is true;
unexpanded nodes contribute no descendants), and it is pure and
deterministic, so two calls with no intervening mutation yield identical
sequences. -/
theorem c3_build_visible_is_preorder (root : Node) :
    build_visible root = visibleSpec root 0 ∧
      build_visible root = build_visible root :=
  ⟨walkVisible_eq_spec root 0, rfl⟩

/-- C4: in every state reachable by the navigation state machine (root
construction included), every node of the tree satisfies the two data-model
invariants: `expanded = true` implies `loaded = true`, and `loaded = false`
implies the children list is empty. -/
theorem c4_invariants (ds : DataSource) (rootId : Nat) (s : BState)
    (h : Reachable ds rootId s) :
    ∀ m ∈ allNodes s.root, (m.expanded = true → m.loaded = true) ∧
      (m.loaded = false → m.children = []) :=
  invB_allNodes s.root (reachable_inv ds rootId s h)

/-- Witness for C4: the root of the freshly constructed `dsEx` tree is
expanded, so by the theorem it is loaded. -/
theorem c4_witness : (initState dsEx 0).root.loaded = true :=
  (c4_invariants dsEx 0 (initState dsEx 0) Reachable.init (initState dsEx 0).root
    (by decide)).1 (by decide)

/-- C5: after any continuing transition, the cursor value used by the next
iteration — the re-clamped cursor — lies within `[0, len(visible)-1]`; the
visible list is never empty, so this is always a valid row index. -/
theorem c5_cursor_clamped (ds : DataSource) (s : BState) (k : Key) (s2 : BState)
    (fs : List (List Nat)) (h : step ds s k = (.next s2, fs)) :
    0 ≤ clampCursor (visiblePaths s2.root) s2.cursor ∧
      clampCursor (visiblePaths s2.root) s2.cursor < (visiblePaths s2.root).length :=
  ⟨Nat.zero_le _, clampCursor_lt _ _ (visiblePaths_ne_nil s2.root)⟩

/-- Witness for C5: a concrete `down` transition of the `dsEx` session. -/
theorem c5_witness :
    clampCursor (visiblePaths (initState dsEx 0).root) 1 <
      (visiblePaths (initState dsEx 0).root).length :=
  (c5_cursor_clamped dsEx (initState dsEx 0) .down ⟨(initState dsEx 0).root, 1⟩ []
    (by decide)).2

/-- C6: every fetch performed by a transition targets the node under the
cursor and only when its `loaded` flag is false; hence over any key
sequence from a reachable state no node path is ever fetched twice, and the
concrete expand-collapse-expand run on `dsEx` performs exactly one fetch
(of node path `[0]`), its cached children persisting across the collapse. -/
theorem c6_fetch_at_most_once (ds : DataSource) (rootId : Nat) (s : BState)
    (h : Reachable ds rootId s) (ks : List Key) :
    (runKeys ds s ks).2.Nodup ∧
      (∀ k out fs, step ds s k = (out, fs) → fs ≠ [] →
        ∃ n, fs = [((visiblePaths s.root).getD (clampCursor (visiblePaths s.root) s.cursor)
              ([], 0)).1] ∧
          getPath s.root ((visiblePaths s.root).getD (clampCursor (visiblePaths s.root)
              s.cursor) ([], 0)).1 = some n ∧ n.loaded = false) ∧
      (runKeys dsEx (initState dsEx 0) [.down, .right, .left, .right]).2 = [[0]] :=
  ⟨runKeys_fetch_nodup ds ks s (reachable_inv ds rootId s h),
    fun k out fs hstep hfs => step_fetch_guard ds s k out fs hstep hfs,
    by decide⟩

/-- Witness for C6: the fetch log of the expand-collapse-expand run is
duplicate-free (indeed a single fetch). -/
theorem c6_witness :
    (runKeys dsEx (initState dsEx 0) [Key.down, Key.right, Key.left, Key.right]).2.Nodup :=
  (c6_fetch_at_most_once dsEx 0 (initState dsEx 0) Reachable.init
    [Key.down, Key.right, Key.left, Key.right]).1

/-- C7 counterexample: the claim says Enter always terminates the session in
the Selected state.  With the cursor on the unloaded node 1 of `dsFail`,
whose fetch raises, Enter does not select anything — the iteration faults
and the exception propagates. -/
theorem c7_counterexample :
    (step dsFail ⟨(initState dsFail 0).root, 1⟩ .enter).1.isDone = none ∧
      (step dsFail ⟨(initState dsFail 0).root, 1⟩ .enter).1.isFault = true :=
  ⟨rfl, rfl⟩

/-- C7 (amended): when the current node is already loaded, or is unloaded
and its fetch succeeds, Enter first ensures the node is loaded and then
always terminates the session immediately in Selected carrying the node's
identifier — even when the node already has loaded, displayed children;
Enter never merely toggles expansion.  When the fetch raises instead, the
session aborts with the error. -/
theorem c7_enter_always_selects (ds : DataSource) (s : BState) (n : Node)
    (hn : getPath s.root ((visiblePaths s.root).getD (clampCursor (visiblePaths s.root)
        s.cursor) ([], 0)).1 = some n) :
    (n.loaded = true → step ds s .enter = (.done (some n.id), [])) ∧
      (n.loaded = false → ∀ kids, get_children ds n.id = .ok kids →
        step ds s .enter = (.done (some n.id),
          [((visiblePaths s.root).getD (clampCursor (visiblePaths s.root) s.cursor)
            ([], 0)).1])) ∧
      (n.loaded = false → get_children ds n.id = .error () →
        (step ds s .enter).1 = .fault) := by
  refine ⟨fun hl => step_enter_loaded ds s n hn hl,
    fun hl kids hg => step_enter_fetch_ok ds s n hn hl kids hg,
    fun hl hg => ?_⟩
  rw [step_enter_fetch_error ds s n hn hl hg]

/-- Witness for C7: Enter on the loaded, expanded root of the `dsEx` tree
(which has visible children) immediately selects the root identifier. -/
theorem c7_witness :
    step dsEx (initState dsEx 0) .enter = (.done (some 0), []) :=
  (c7_enter_always_selects dsEx (initState dsEx 0) (initState dsEx 0).root
    (by decide)).1 (by decide)

/-- C8: with a non-empty visible list, collapse/left on an expanded current
node sets `expanded = false` (cursor untouched); on an unexpanded node with
a parent it instead moves the cursor to the index of the first row of the
freshly rebuilt visible list whose node is the parent — node identity being
a path, the row found carries exactly the parent's path, it always exists,
and no earlier row carries it. -/
theorem c8_left_key (ds : DataSource) (s : BState) (n : Node)
    (hn : getPath s.root ((visiblePaths s.root).getD (clampCursor (visiblePaths s.root)
        s.cursor) ([], 0)).1 = some n) :
    (n.expanded = true → step ds s .left = (.next ⟨updatePath s.root
        ((visiblePaths s.root).getD (clampCursor (visiblePaths s.root) s.cursor) ([], 0)).1
        (fun m => m.setExpanded false),
        clampCursor (visiblePaths s.root) s.cursor⟩, [])) ∧
      (n.expanded = false →
        ((visiblePaths s.root).getD (clampCursor (visiblePaths s.root) s.cursor)
          ([], 0)).1 ≠ [] →
        ∃ j, step ds s .left = (.next ⟨s.root, j⟩, []) ∧
          j < (visiblePaths s.root).length ∧
          (∃ dp, (visiblePaths s.root)[j]? = some
            ((((visiblePaths s.root).getD (clampCursor (visiblePaths s.root) s.cursor)
              ([], 0)).1).dropLast, dp)) ∧
          ∀ k2, k2 < j → ∀ e2, (visiblePaths s.root)[k2]? = some e2 →
            e2.1 ≠ (((visiblePaths s.root).getD (clampCursor (visiblePaths s.root)
              s.cursor) ([], 0)).1).dropLast) :=
  ⟨fun he => step_left_collapse ds s n hn he,
    fun he hne => step_left_parent ds s n hn he hne⟩

/-- Witness for C8: collapsing the expanded node 1 of the `dsEx` tree. -/
theorem c8_witness :
    step dsEx ⟨Node.mk 0 true true [Node.mk 1 true true [Node.new 3], Node.new 2], 1⟩ .left
      = (.next ⟨Node.mk 0 true true [Node.mk 1 true false [Node.new 3], Node.new 2], 1⟩,
          []) :=
  ((c8_left_key dsEx ⟨Node.mk 0 true true [Node.mk 1 true true [Node.new 3], Node.new 2], 1⟩
    (Node.mk 1 true true [Node.new 3]) (by decide)).1 (by decide)).trans (by decide)

/-- C9: for every tree, the visible list built by `_build_visible` is
non-empty and starts with the root at depth 0; its path-instrumented mirror
has the same head and length, so the loop's empty-visible guards can never
fire and the clamped cursor always indexes a real row. -/
theorem c9_visible_nonempty (root : Node) (c : Nat) :
    (build_visible root).head? = some (root, 0) ∧ build_visible root ≠ [] ∧
      (visiblePaths root).head? = some ([], 0) ∧ visiblePaths root ≠ [] ∧
      (visiblePaths root).length = (build_visible root).length ∧
      clampCursor (visiblePaths root) c < (visiblePaths root).length := by
  rcases build_visible_head root with ⟨rest, hb⟩
  rcases visiblePaths_head root with ⟨rest2, hv⟩
  refine ⟨by rw [hb]; rfl, by rw [hb]; exact List.cons_ne_nil _ _,
    by rw [hv]; rfl, visiblePaths_ne_nil root, ?_,
    clampCursor_lt _ _ (visiblePaths_ne_nil root)⟩
  rw [build_visible, visiblePaths]
  exact visitPaths_length root [] 0

/-- C10: the Data Source adapter `get_children` returns the node's members
followed by its structural children, concatenated in exactly that order;
accordingly, after a successful expand of a not-yet-loaded node the browser
displays exactly that concatenation as the node's ordered children. -/
theorem c10_members_then_children (ds : DataSource) (i : Nat) (ms cs : List Nat)
    (hm : ds.getMembers i = .ok ms) (hc : ds.getChildNodes i = .ok cs) :
    get_children ds i = .ok (ms ++ cs) ∧
      (∀ s n, getPath s.root ((visiblePaths s.root).getD (clampCursor (visiblePaths s.root)
          s.cursor) ([], 0)).1 = some n → n.loaded = false → n.id = i →
        ∃ s2, step ds s .right = (.next s2,
            [((visiblePaths s.root).getD (clampCursor (visiblePaths s.root) s.cursor)
              ([], 0)).1]) ∧
          ∃ n2, getPath s2.root ((visiblePaths s.root).getD (clampCursor
              (visiblePaths s.root) s.cursor) ([], 0)).1 = some n2 ∧
            n2.children.map Node.id = ms ++ cs ∧ n2.loaded = true) := by
  have hg : get_children ds i = .ok (ms ++ cs) := by
    rw [get_children]
    rw [hm, hc]
    rfl
  refine ⟨hg, fun s n hn hl hid => ?_⟩
  exact step_right_children ds s n hn hl (ms ++ cs) (by rw [hid]; exact hg)

/-- Witness for C10: the `dsEx` root, whose members are `[1]` and whose
structural children are `[2]`. -/
theorem c10_witness : get_children dsEx 0 = .ok ([1] ++ [2]) :=
  (c10_members_then_children dsEx 0 [1] [2] rfl rfl).1

end PyTraverser
